import Mathlib

/-!
Shallow embedding of the `kvlite` package (namespaced, optionally-encrypted
key/value store over a flat bucket engine) and proofs about its claims.

Go strings and byte slices are modelled as `List Nat` (byte values); the two
backend states (the bolt file and the in-memory map) are association lists
`table name ↦ (key ↦ stored bytes)`.  Map/bucket iteration order is modelled
as insertion order; all enumeration claims are read at the level the spec
states them (membership / sets of names).  The external gob codec and the
AES-CFB transforms keyed by `encoder` are modelled as abstract function
pairs, with their round-trip laws taken as hypotheses where a claim needs
them.
-/

namespace KVLite

/-- Go byte strings: table names, keys and raw stored values. -/
abbrev GoStr := List Nat

/-- Raw byte payloads (same representation as names). -/
abbrev Bytes := List Nat

/-- The reserved separator byte, `sepr = '\x1f'` (part_002 line 13). -/
def sepr : Nat := 31

/-- The reserved system table name, the Go string literal `KVLite`. -/
def kvliteName : GoStr := [75, 86, 76, 105, 116, 101]

/-- The Go string literal `Reset` (the reset-marker key in the system table). -/
def resetKey : GoStr := [82, 101, 115, 101, 116]

/-- The Go string literal `X` (the lock-state key in the system table). -/
def xKey : GoStr := [88]

/-- The Go string literal `__shared__` used by `substore.Shared`. -/
def sharedName : GoStr := [95, 95, 115, 104, 97, 114, 101, 100, 95, 95]

/-- The pluggable gob serializer (`encoding/gob`), external to the package:
an encode function and a decode function that may fail. -/
structure GobCodec (V : Type) where
  enc : V → Bytes
  dec : Bytes → Option V

/-- The `encoder` secret's keyed AES-CFB transforms (`encoder.encrypt` /
`encoder.decrypt`), external crypto modelled as a pair of byte transforms. -/
structure Encoder where
  enc : Bytes → Bytes
  dec : Bytes → Bytes

/-- One table: an association list key ↦ raw stored bytes (insertion order). -/
abbrev TBucket := List (GoStr × Bytes)

/-- One backend state: an association list table ↦ bucket (insertion order). -/
abbrev KV := List (GoStr × TBucket)

/-- Association-list lookup of a table (bolt `tx.Bucket`, mem `K.kv[table]`). -/
def findTable : KV → GoStr → Option TBucket
  | [], _ => none
  | (n, b) :: rest, t => if n = t then some b else findTable rest t

/-- Association-list lookup of a key in a bucket (bolt `bucket.Get`,
mem `t[key]`). -/
def findKey : TBucket → GoStr → Option Bytes
  | [], _ => none
  | (k0, v0) :: rest, k => if k0 = k then some v0 else findKey rest k

/-- Lookup of the raw stored bytes at `(table, key)`. -/
def findVal (st : KV) (t k : GoStr) : Option Bytes :=
  match findTable st t with
  | none => none
  | some b => findKey b k

/-- Store-or-overwrite of a key in a bucket (bolt `bucket.Put`,
mem `t[key] = v`). -/
def putKey : TBucket → GoStr → Bytes → TBucket
  | [], k, v => [(k, v)]
  | (k0, v0) :: rest, k, v =>
      if k0 = k then (k0, v) :: rest else (k0, v0) :: putKey rest k v

/-- Removal of a key from a bucket (bolt `bucket.Delete`, mem `delete(t, key)`). -/
def delKey : TBucket → GoStr → TBucket
  | [], _ => []
  | (k0, v0) :: rest, k =>
      if k0 = k then rest else (k0, v0) :: delKey rest k

/-- Apply `f` to the bucket stored under `t`, leaving other tables alone. -/
def updTable : KV → GoStr → (TBucket → TBucket) → KV
  | [], _, _ => []
  | (n, b) :: rest, t, f =>
      if n = t then (n, f b) :: rest else (n, b) :: updTable rest t f

/-- Removal of a whole table (bolt `tx.DeleteBucket`, mem `delete(K.kv, k)`). -/
def delTable : KV → GoStr → KV
  | [], _ => []
  | (n, b) :: rest, t =>
      if n = t then rest else (n, b) :: delTable rest t

/-- Create the table if absent (bolt `tx.CreateBucketIfNotExists`,
mem `K.kv[table] = make(map[string][]byte)`). -/
def ensureTable (st : KV) (t : GoStr) : KV :=
  match findTable st t with
  | some _ => st
  | none => st ++ [(t, [])]

/-- The value framing shared by `boltDB.set` and `memStore.set`: the encoded
payload is optionally encrypted, then prefixed with a one-byte flag
(`append([]byte{1}, v...)` / `append([]byte{0}, v...)`). -/
def frame (e : Encoder) (payload : Bytes) (encrypt_value : Bool) : Bytes :=
  if encrypt_value then 1 :: e.enc payload else 0 :: payload

/-- Possible outcomes of `encoder.decode` called on an input. -/
inductive DecOut (V : Type) where
  /-- nil input: decode returns nil without touching the output. -/
  | noop : DecOut V
  /-- successfully decoded value written to the output. -/
  | val : V → DecOut V
  /-- the gob decoder returned an error. -/
  | gobErr : DecOut V
  /-- `input[0]` on a non-nil empty slice: index out of range. -/
  | oob : DecOut V
deriving DecidableEq

/-- Result of running the gob decoder (`x.Decode(output)`) on bytes `i`. -/
def gobRes {V : Type} (g : GobCodec V) (i : Bytes) : DecOut V :=
  match g.dec i with
  | some v => DecOut.val v
  | none => DecOut.gobErr

/-- The package's `encoder.decode` (part_001 lines 163-179): nil input is a
no-op; otherwise it reads `input[0]` (panicking on a non-nil empty slice),
decrypts the remainder exactly when that byte is 1, and gob-decodes. -/
def decode {V : Type} (e : Encoder) (g : GobCodec V) : Option Bytes → DecOut V
  | none => DecOut.noop
  | some [] => DecOut.oob
  | some (b :: rest) => gobRes g (if b = 1 then e.dec rest else rest)

/-- First segment of a name: `strings.Split(name, string(sepr))[0]`. -/
def firstSeg (s : GoStr) : GoStr := s.takeWhile (fun c => c != sepr)

/-- The loop body of `boltDB.buckets` (part_001 lines 101-124): every bucket
name is visited; the name `KVLite` is skipped; with `limit_depth` the first
segment is emitted once per distinct value, otherwise the full name. -/
def boltBucketsAux : List GoStr → List GoStr → Bool → List GoStr
  | [], _, _ => []
  | n :: rest, seen, limit =>
      if n = kvliteName then boltBucketsAux rest seen limit
      else if limit then
        let f := firstSeg n
        if f ∈ seen then boltBucketsAux rest seen limit
        else f :: boltBucketsAux rest (f :: seen) limit
      else n :: boltBucketsAux rest seen limit

/-- `boltDB.buckets`: iterate all bucket names of the state. -/
def boltBuckets (st : KV) (limit_depth : Bool) : List GoStr :=
  boltBucketsAux (st.map Prod.fst) [] limit_depth

/-- The loop body of `memStore.buckets` (part_003 lines 31-49): identical to
the bolt loop except that nothing is skipped — `KVLite` is not filtered. -/
def memBucketsAux : List GoStr → List GoStr → Bool → List GoStr
  | [], _, _ => []
  | n :: rest, seen, limit =>
      if limit then
        let f := firstSeg n
        if f ∈ seen then memBucketsAux rest seen limit
        else f :: memBucketsAux rest (f :: seen) limit
      else n :: memBucketsAux rest seen limit

/-- `memStore.buckets`: iterate all table names of the map. -/
def memBuckets (st : KV) (limit_depth : Bool) : List GoStr :=
  memBucketsAux (st.map Prod.fst) [] limit_depth

/-- `boltDB.Tables` (part_001 lines 269-280): depth-limited buckets, then
drop names containing the separator. -/
def boltTables (st : KV) : List GoStr :=
  (boltBuckets st true).filter (fun v => !(v.contains sepr))

/-- `memStore.Tables` (part_003 lines 62-73). -/
def memTables (st : KV) : List GoStr :=
  (memBuckets st true).filter (fun v => !(v.contains sepr))

/-- `boltDB.Keys` (part_001 lines 213-226): empty for a missing table. -/
def boltKeys (st : KV) (t : GoStr) : List GoStr :=
  match findTable st t with
  | none => []
  | some b => b.map Prod.fst

/-- `memStore.Keys` (part_003 lines 51-60). -/
def memKeys (st : KV) (t : GoStr) : List GoStr :=
  match findTable st t with
  | none => []
  | some b => b.map Prod.fst

/-- `boltDB.CountKeys` (part_001 lines 200-210): `bucket.Stats().KeyN`. -/
def boltCountKeys (st : KV) (t : GoStr) : Nat :=
  match findTable st t with
  | none => 0
  | some b => b.length

/-- `memStore.CountKeys` (part_003 lines 108-115): `len(t)`. -/
def memCountKeys (st : KV) (t : GoStr) : Nat :=
  match findTable st t with
  | none => 0
  | some b => b.length

/-- `boltDB.Unset` (part_001 lines 229-240): no-op for a missing table. -/
def boltUnset (st : KV) (t k : GoStr) : KV :=
  match findTable st t with
  | none => st
  | some _ => updTable st t (fun b => delKey b k)

/-- `memStore.Unset` (part_003 lines 87-94). -/
def memUnset (st : KV) (t k : GoStr) : KV :=
  match findTable st t with
  | none => st
  | some _ => updTable st t (fun b => delKey b k)

/-- `boltDB.Get` (part_001 lines 288-304) with a non-nil output argument:
missing bucket gives `(false, nil)`; a missing key gives `found = false` and
`decode(nil, output)`; otherwise `found = true` and the record is decoded. -/
def boltGet {V : Type} (e : Encoder) (g : GobCodec V) (st : KV) (t k : GoStr) :
    Bool × DecOut V :=
  match findTable st t with
  | none => (false, DecOut.noop)
  | some b =>
      match findKey b k with
      | none => (false, decode e g none)
      | some data => (true, decode e g (some data))

/-- The `found`-only use of `boltDB.Get` with a nil output (as in `Open`'s
reset-marker probe): decode is skipped when the record exists. -/
def boltFound (st : KV) (t k : GoStr) : Bool :=
  match findTable st t with
  | none => false
  | some b => (findKey b k).isSome

/-- `memStore.Get` (part_003 lines 96-105). -/
def memGet {V : Type} (e : Encoder) (g : GobCodec V) (st : KV) (t k : GoStr) :
    Bool × DecOut V :=
  match findTable st t with
  | none => (false, DecOut.noop)
  | some b =>
      match findKey b k with
      | none => (false, DecOut.noop)
      | some v => (true, decode e g (some v))

/-- Low-level raw put: create the table if needed, then store the framed
bytes (the common tail of both `set` implementations). -/
def putRaw (st : KV) (t k : GoStr) (raw : Bytes) : KV :=
  updTable (ensureTable st t) t (fun b => putKey b k raw)

/-- `boltDB.set` (part_001 lines 321-342): encode the value, optionally
encrypt, frame with the flag byte, and store. -/
def boltSet {V : Type} (e : Encoder) (g : GobCodec V) (st : KV) (t k : GoStr)
    (v : V) (encrypt_value : Bool) : KV :=
  putRaw st t k (frame e (g.enc v) encrypt_value)

/-- `memStore.set` (part_003 lines 127-151): identical framing and storage
over the guarded map. -/
def memSet {V : Type} (e : Encoder) (g : GobCodec V) (st : KV) (t k : GoStr)
    (v : V) (encrypt_value : Bool) : KV :=
  putRaw st t k (frame e (g.enc v) encrypt_value)

/-- `boltDB.Drop` (part_001 lines 243-266): list all buckets except `KVLite`,
keep those equal to `table` or prefixed by `table` plus the separator, and
delete each one. -/
def boltDrop (st : KV) (t : GoStr) : KV :=
  let cands := (boltBuckets st false).filter
    (fun v => (t ++ [sepr]).isPrefixOf v || v == t)
  cands.foldl delTable st

/-- `memStore.Drop` (part_003 lines 75-85): delete every table equal to
`table` or prefixed by `table` plus the separator. -/
def memDrop (st : KV) (t : GoStr) : KV :=
  st.filter (fun nb => !((t ++ [sepr]).isPrefixOf nb.1 || nb.1 == t))

/-- `memStore.Close` (part_003 lines 154-161): the map is cleared. -/
def memClose (_st : KV) : KV := []

/-- The namespace router `substore` (part_002): a prefix over a base store. -/
structure Substore where
  pre : GoStr

/-- `substore.apply_prefix` (part_002 lines 16-18): the Go body is
`string(append([]rune(d.prefix), sepr))` — it appends the separator to the
stored prefix and ignores the `name` argument entirely. -/
def applyPre (d : Substore) (_name : GoStr) : GoStr := d.pre ++ [sepr]

/-- `boltDB.Sub` / `memStore.Sub` at the root: prefix `name + sepr`. -/
def rootSub (name : GoStr) : Substore := ⟨name ++ [sepr]⟩

/-- `boltDB.Bucket` (part_001 lines 190-192) and `memStore.Bucket`
(part_003 lines 22-24): both simply return `K.Sub(name)`. -/
def rootBucket (name : GoStr) : Substore := rootSub name

/-- `substore.Sub` (part_002 lines 20-22): prefix `d.prefix + name + sepr`. -/
def Substore.sub (d : Substore) (name : GoStr) : Substore :=
  ⟨d.pre ++ name ++ [sepr]⟩

/-- `substore.Shared` (part_002 lines 25-27): prefix
`"__shared__" + sepr + name + sepr`, independent of `d.prefix`. -/
def Substore.shared (_d : Substore) (name : GoStr) : Substore :=
  ⟨sharedName ++ [sepr] ++ name ++ [sepr]⟩

/-- `substore.Set` over the in-memory backend (part_002 lines 44-46). -/
def subSet {V : Type} (e : Encoder) (g : GobCodec V) (d : Substore) (st : KV)
    (t k : GoStr) (v : V) : KV :=
  memSet e g st (applyPre d t) k v false

/-- `substore.Get` over the in-memory backend (part_002 lines 49-51). -/
def subGet {V : Type} (e : Encoder) (g : GobCodec V) (d : Substore) (st : KV)
    (t k : GoStr) : Bool × DecOut V :=
  memGet e g st (applyPre d t) k

/-- The crypted-record probe of `CryptReset` (part_001 lines 364-379):
`o != nil && o[0] == 1`.  A non-nil empty record would panic in Go; records
written through `set` are always non-empty. -/
def isCrypted : Option Bytes → Bool
  | some (b :: _) => b == 1
  | _ => false

/-- The per-table purge loop of `CryptReset`: collect the keys whose record
carries the encrypted flag, then `Unset` each of them. -/
def purgeTable (st : KV) (t : GoStr) : KV :=
  let crypted := (boltKeys st t).filter (fun k => isCrypted (findVal st t k))
  crypted.foldl (fun s k => boltUnset s t k) st

/-- `CryptReset` (part_001 lines 345-392) over the bolt state model.
`gobTrue` stands for the gob encoding of the Go value `true` written by
`db.Set("KVLite", "Reset", true)` (a plaintext frame).  After the purge the
code calls `db.Drop("KVLite")` and closes. -/
def cryptReset (gobTrue : Bytes) (st : KV) : KV :=
  let st1 := putRaw st kvliteName resetKey (0 :: gobTrue)
  let st2 := (boltBuckets st1 false).foldl purgeTable st1
  boltDrop st2 kvliteName

/-- `Open` (part_001 lines 407-446) over the bolt state model: probe the
reset marker with a nil output, run `CryptReset` and reopen if it is found,
then unlock and persist the lock-state record.  Modelled from the spec: the
padlock validation `xLock.dbunlocker` is not in src/ — it is abstracted by
`unlockOk` (whether §4.5 validation succeeds) and `xBytes` (the gob bytes of
the lock-state record written back by `db.Set("KVLite", "X", &X)`). -/
def openStore (gobTrue xBytes : Bytes) (unlockOk : Bool) (st : KV) :
    Option KV :=
  let st1 := if boltFound st kvliteName resetKey then cryptReset gobTrue st
             else st
  if unlockOk then some (putRaw st1 kvliteName xKey (0 :: xBytes)) else none

/-- Round-trip law for the gob codec: decoding an encoding recovers the value. -/
def GobCodec.RT {V : Type} (g : GobCodec V) : Prop :=
  ∀ v, g.dec (g.enc v) = some v

/-- Round-trip law for the keyed cipher: decrypting an encryption is identity. -/
def Encoder.RT (e : Encoder) : Prop :=
  ∀ b, e.dec (e.enc b) = b

/-- Flag discipline: every stored record is non-empty and starts with 0 or 1. -/
def WfFlags (st : KV) : Prop :=
  ∀ nb ∈ st, ∀ kv ∈ nb.2, kv.2.head? = some 0 ∨ kv.2.head? = some 1

/-- Every stored record is a non-empty byte string. -/
def WfB (b : TBucket) : Prop := ∀ kv ∈ b, kv.2 ≠ ([] : Bytes)

/-- Every bucket of the state satisfies `WfB`. -/
def WfS (st : KV) : Prop := ∀ nb ∈ st, WfB nb.2

/-- No table of the state carries the reserved system name. -/
def NoSys (st : KV) : Prop := ∀ nb ∈ st, nb.1 ≠ kvliteName

/-- The caller-visible table-qualified operations compared across backends. -/
inductive Op (V : Type) where
  | tables : Op V
  | drop : GoStr → Op V
  | countKeys : GoStr → Op V
  | keys : GoStr → Op V
  | set : GoStr → GoStr → V → Op V
  | cryptSet : GoStr → GoStr → V → Op V
  | unset : GoStr → GoStr → Op V
  | get : GoStr → GoStr → Op V

/-- Caller-visible result of one operation. -/
inductive Out (V : Type) where
  | names : List GoStr → Out V
  | count : Nat → Out V
  | done : Out V
  | got : Bool → DecOut V → Out V
deriving DecidableEq

/-- True when the operation's table argument is not the reserved name. -/
def Op.noSys {V : Type} : Op V → Bool
  | .tables => true
  | .drop t => t != kvliteName
  | .countKeys t => t != kvliteName
  | .keys t => t != kvliteName
  | .set t _ _ => t != kvliteName
  | .cryptSet t _ _ => t != kvliteName
  | .unset t _ => t != kvliteName
  | .get t _ => t != kvliteName

/-- One step of the persistent backend. -/
def boltStep {V : Type} (e : Encoder) (g : GobCodec V) (st : KV) :
    Op V → Out V × KV
  | .tables => (Out.names (boltTables st), st)
  | .drop t => (Out.done, boltDrop st t)
  | .countKeys t => (Out.count (boltCountKeys st t), st)
  | .keys t => (Out.names (boltKeys st t), st)
  | .set t k v => (Out.done, boltSet e g st t k v false)
  | .cryptSet t k v => (Out.done, boltSet e g st t k v true)
  | .unset t k => (Out.done, boltUnset st t k)
  | .get t k => (Out.got (boltGet e g st t k).1 (boltGet e g st t k).2, st)

/-- One step of the in-memory backend. -/
def memStep {V : Type} (e : Encoder) (g : GobCodec V) (st : KV) :
    Op V → Out V × KV
  | .tables => (Out.names (memTables st), st)
  | .drop t => (Out.done, memDrop st t)
  | .countKeys t => (Out.count (memCountKeys st t), st)
  | .keys t => (Out.names (memKeys st t), st)
  | .set t k v => (Out.done, memSet e g st t k v false)
  | .cryptSet t k v => (Out.done, memSet e g st t k v true)
  | .unset t k => (Out.done, memUnset st t k)
  | .get t k => (Out.got (memGet e g st t k).1 (memGet e g st t k).2, st)

/-- Run a sequence of operations on the persistent backend, collecting the
caller-visible outputs. -/
def boltRun {V : Type} (e : Encoder) (g : GobCodec V) :
    KV → List (Op V) → List (Out V) × KV
  | st, [] => ([], st)
  | st, op :: ops =>
      let s1 := boltStep e g st op
      let s2 := boltRun e g s1.2 ops
      (s1.1 :: s2.1, s2.2)

/-- Run a sequence of operations on the in-memory backend. -/
def memRun {V : Type} (e : Encoder) (g : GobCodec V) :
    KV → List (Op V) → List (Out V) × KV
  | st, [] => ([], st)
  | st, op :: ops =>
      let s1 := memStep e g st op
      let s2 := memRun e g s1.2 ops
      (s1.1 :: s2.1, s2.2)

/-- The content a reader observes in a stored frame: the payload, decrypted
when the flag byte is 1 (mirrors the branch of `encoder.decode`). -/
def frameView (e : Encoder) : Bytes → Bytes
  | [] => []
  | b :: rest => if b = 1 then e.dec rest else rest

/-- Bucket observed through `frameView`. -/
def viewB (e : Encoder) (b : TBucket) : TBucket :=
  b.map (fun kv => (kv.1, frameView e kv.2))

/-- State observed through `frameView`. -/
def viewS (e : Encoder) (st : KV) : KV :=
  st.map (fun nb => (nb.1, viewB e nb.2))

/-- Simulation relation between a persistent-backend state and an in-memory
state: the bolt state is the system table followed by a caller-table region
that observes identically to the in-memory state. -/
def SimInv (e1 e2 : Encoder) (bs ms : KV) : Prop :=
  ∃ bx bs2, bs = (kvliteName, bx) :: bs2 ∧ NoSys bs2 ∧ NoSys ms ∧
    WfS bs2 ∧ WfS ms ∧ viewS e1 bs2 = viewS e2 ms

/-- Concrete gob codec on `Nat` used for witnesses: a one-byte encoding. -/
def g0 : GobCodec Nat :=
  ⟨fun n => [n], fun l => match l with | [n] => some n | _ => none⟩

/-- Concrete identity cipher used for witnesses. -/
def e0 : Encoder := ⟨id, id⟩

/-- Concrete shift cipher used for witnesses (distinct from `e0`). -/
def e1 : Encoder := ⟨fun l => l.map (fun b => b + 1), fun l => l.map (fun b => b - 1)⟩

/-- The Go string literal `a`. -/
def aN : GoStr := [97]

/-- The Go string literal `ab`. -/
def abN : GoStr := [97, 98]

/-- The Go string literal `t1`. -/
def t1N : GoStr := [116, 49]

/-- The Go string literal `t2`. -/
def t2N : GoStr := [116, 50]

/-- The Go string literal `k`. -/
def kN : GoStr := [107]

/-- The Go string literal `t`. -/
def tN : GoStr := [116]

/-- The Go string literal `e` (a key holding an encrypted record). -/
def ekN : GoStr := [101]

/-- The Go string literal `p` (a key holding a plaintext record). -/
def pkN : GoStr := [112]

/-- The Go string literal `n`. -/
def nN : GoStr := [110]

/-- A state with tables `a`, `a␟x`, `a␟y` and `ab` (the separator written
as `␟`), for the cascading-drop example. -/
def exSt : KV :=
  [(aN, [(kN, [0, 1])]), (aN ++ [31, 120], [(kN, [0, 2])]),
   (aN ++ [31, 121], [(kN, [0, 3])]), (abN, [(kN, [0, 4])])]

/-- A database holding one plaintext and one encrypted record plus a
lock-state record, built through the public write path. -/
def c7st0 : KV :=
  putRaw (boltSet e0 g0 (boltSet e0 g0 [] tN pkN 7 false) tN ekN 5 true)
    kvliteName xKey (0 :: [9])

/-- The database `c7st0` after `CryptReset` runs to completion. -/
def c7st1 : KV := cryptReset [1] c7st0

/-- A database left by an interrupted `CryptReset`: the reset marker is
present and an encrypted record survives alongside a plaintext one. -/
def c8st : KV :=
  [(kvliteName, [(resetKey, [0, 1])]), (tN, [(ekN, [1, 5]), (pkN, [0, 7])])]

/-- A concrete operation sequence avoiding the reserved table name, used to
witness the backend-agreement theorem. -/
def wops : List (Op Nat) :=
  [Op.set tN kN 3, Op.cryptSet tN ekN 4, Op.get tN kN, Op.get tN ekN,
   Op.tables, Op.keys tN, Op.countKeys tN, Op.unset tN kN, Op.get tN kN,
   Op.drop tN, Op.tables]

theorem findTable_cons_ne {n t : GoStr} (h : n ≠ t) (b : TBucket) (st : KV) :
    findTable ((n, b) :: st) t = findTable st t := by
  simp [findTable, h]

theorem findTable_mem {st : KV} {t : GoStr} {b : TBucket}
    (h : findTable st t = some b) : (t, b) ∈ st := by
  induction st with
  | nil => simp [findTable] at h
  | cons nb rest ih =>
    obtain ⟨n, b0⟩ := nb
    by_cases hn : n = t
    · subst hn
      simp [findTable] at h
      simp [h]
    · rw [findTable_cons_ne hn] at h
      exact List.mem_cons_of_mem _ (ih h)

theorem findKey_mem {b : TBucket} {k : GoStr} {v : Bytes}
    (h : findKey b k = some v) : (k, v) ∈ b := by
  induction b with
  | nil => simp [findKey] at h
  | cons kv rest ih =>
    obtain ⟨k0, v0⟩ := kv
    by_cases hk : k0 = k
    · subst hk
      simp [findKey] at h
      simp [h]
    · simp [findKey, hk] at h
      exact List.mem_cons_of_mem _ (ih h)

theorem findKey_putKey_self (b : TBucket) (k : GoStr) (v : Bytes) :
    findKey (putKey b k v) k = some v := by
  induction b with
  | nil => simp [putKey, findKey]
  | cons kv rest ih =>
    obtain ⟨k0, v0⟩ := kv
    by_cases hk : k0 = k
    · subst hk
      simp [putKey, findKey]
    · simp [putKey, findKey, hk, ih]

theorem putRaw_cons_ne {n t : GoStr} (hn : n ≠ t) (b : TBucket) (st : KV)
    (k : GoStr) (raw : Bytes) :
    putRaw ((n, b) :: st) t k raw = (n, b) :: putRaw st t k raw := by
  cases h : findTable st t with
  | some b0 => simp [putRaw, ensureTable, findTable, hn, h, updTable]
  | none => simp [putRaw, ensureTable, findTable, hn, h, updTable]

theorem findVal_putRaw_self (st : KV) (t k : GoStr) (raw : Bytes) :
    findVal (putRaw st t k raw) t k = some raw := by
  induction st with
  | nil =>
    simp [putRaw, ensureTable, findTable, updTable, findVal, putKey, findKey]
  | cons nb rest ih =>
    obtain ⟨n, b⟩ := nb
    by_cases hn : n = t
    · subst hn
      simp [putRaw, ensureTable, findTable, updTable, findVal,
        findKey_putKey_self]
    · rw [putRaw_cons_ne hn]
      unfold findVal
      rw [findTable_cons_ne hn]
      exact ih

theorem gobRes_ne_oob {V : Type} (g : GobCodec V) (i : Bytes) :
    gobRes g i ≠ DecOut.oob := by
  unfold gobRes
  cases g.dec i <;> simp

theorem memGet_eq_boltGet {V : Type} (e : Encoder) (g : GobCodec V)
    (st : KV) (t k : GoStr) : memGet e g st t k = boltGet e g st t k := by
  unfold memGet boltGet
  cases findTable st t with
  | none => rfl
  | some b =>
    cases findKey b k with
    | none => simp [decode]
    | some v => rfl

theorem memSet_eq_boltSet {V : Type} : @memSet V = @boltSet V := rfl

theorem boltGet_putRaw_self {V : Type} (e : Encoder) (g : GobCodec V)
    (st : KV) (t k : GoStr) (raw : Bytes) :
    boltGet e g (putRaw st t k raw) t k = (true, decode e g (some raw)) := by
  have h := findVal_putRaw_self st t k raw
  unfold findVal at h
  unfold boltGet
  cases ht : findTable (putRaw st t k raw) t with
  | none => rw [ht] at h; simp at h
  | some b =>
    rw [ht] at h
    simp at h
    simp [h]

theorem boltGet_absent {V : Type} (e : Encoder) (g : GobCodec V) {st : KV}
    {t k : GoStr} (h : findVal st t k = none) :
    boltGet e g st t k = (false, DecOut.noop) := by
  unfold findVal at h
  unfold boltGet
  cases ht : findTable st t with
  | none => simp
  | some b =>
    rw [ht] at h
    simp at h
    simp [h, decode]

theorem decode_frame_false {V : Type} (e : Encoder) (g : GobCodec V)
    (p : Bytes) : decode e g (some (frame e p false)) = gobRes g p := by
  simp [frame, decode]

theorem decode_frame_true {V : Type} (e : Encoder) (g : GobCodec V)
    (he : Encoder.RT e) (p : Bytes) :
    decode e g (some (frame e p true)) = gobRes g p := by
  simp [frame, decode, he p]

/-- C1: every table-qualified call through a sub-store is claimed to use the
qualified name `prefix + table`; in the code `substore.apply_prefix` ignores
the table argument and returns `prefix + sepr`, so two distinct tables named
through the same sub-store collapse onto one backend table.  Written through
the sub-store of prefix `a␟`, `Set("t1", k, 5)` is returned by
`Get("t2", k)` through the same sub-store, while the root-store `Get`
correctly misses it. -/
theorem subPrefixIgnored :
    applyPre (rootSub aN) t1N = aN ++ [sepr, sepr] ∧
    applyPre (rootSub aN) t2N = applyPre (rootSub aN) t1N ∧
    applyPre (rootSub aN) t1N ≠ (rootSub aN).pre ++ t1N ∧
    subGet e0 g0 (rootSub aN) (subSet e0 g0 (rootSub aN) [] t1N kN 5) t2N kN
      = (true, DecOut.val 5) ∧
    memGet e0 g0 (subSet e0 g0 (rootSub aN) [] t1N kN 5) t1N kN
      = (false, DecOut.noop) := by
  refine ⟨by decide, by decide, by decide, by decide, by decide⟩

/-- C5 counterexample: on the in-memory backend the reserved system table
name is NOT filtered from enumeration — after a public `Set` into table
`KVLite`, `Tables()` returns it. -/
theorem memTablesRevealSystem :
    memTables (memSet e0 g0 [] kvliteName kN 7 false) = [kvliteName] := by
  decide

/-- C6 counterexample: the root store's `Bucket(n)` is just `Sub(n)` with
prefix `n␟`, while a sub-store's shared-namespace variant `Shared(n)` roots
at `__shared__␟n␟`; the two routers address different tables, so a write
through the root's `Bucket("n")` is invisible through a sub-store's
`Shared("n")`. -/
theorem sharedNamespaceMismatch :
    ((rootSub aN).shared nN).pre ≠ (rootBucket nN).pre ∧
    subGet e0 g0 ((rootSub aN).shared nN)
      (subSet e0 g0 (rootBucket nN) [] tN kN 5) tN kN
      = (false, DecOut.noop) := by
  refine ⟨by decide, by decide⟩

/-- C6 amended: the sub-store's `Shared(n)` is rooted at the fixed prefix
`__shared__␟n␟`, independent of the receiving sub-store's own prefix (so any
two sub-stores converge through it), while the root stores' `Bucket(n)` is
simply `Sub(n)` with prefix `n␟`. -/
theorem sharedNamespaceAmended :
    (∀ (d1 d2 : Substore) (n : GoStr),
        Substore.shared d1 n = Substore.shared d2 n) ∧
    (∀ (d : Substore) (n : GoStr),
        (Substore.shared d n).pre = sharedName ++ [sepr] ++ n ++ [sepr]) ∧
    (∀ n : GoStr, rootBucket n = rootSub n) :=
  ⟨fun _ _ _ => rfl, fun _ _ => rfl, fun _ => rfl⟩

theorem boltBucketsAux_false (names seen : List GoStr) :
    boltBucketsAux names seen false
      = names.filter (fun n => !(n == kvliteName)) := by
  induction names generalizing seen with
  | nil => rfl
  | cons n rest ih =>
    by_cases h : n = kvliteName
    · subst h
      simp [boltBucketsAux, List.filter, ih]
    · have hb : (n == kvliteName) = false := beq_eq_false_iff_ne.mpr h
      simp [boltBucketsAux, h, List.filter, ih, hb]

theorem foldl_delTable_cons_ne (n : GoStr) (b : TBucket) :
    ∀ (names : List GoStr) (st : KV), (∀ m ∈ names, m ≠ n) →
      names.foldl delTable ((n, b) :: st)
        = (n, b) :: names.foldl delTable st := by
  intro names
  induction names with
  | nil => intro st _; rfl
  | cons m rest ih =>
    intro st h
    have hm : m ≠ n := h m (by simp)
    have hd : delTable ((n, b) :: st) m = (n, b) :: delTable st m := by
      simp [delTable, Ne.symm hm]
    simp only [List.foldl_cons, hd]
    exact ih (delTable st m) (fun m2 hm2 => h m2 (by simp [hm2]))

theorem foldl_delTable_filter (q : GoStr → Bool) (st : KV) :
    ((st.map Prod.fst).filter q).foldl delTable st
      = st.filter (fun nb => !(q nb.1)) := by
  induction st with
  | nil => rfl
  | cons nb rest ih =>
    obtain ⟨n, b⟩ := nb
    by_cases hq : q n = true
    · simp only [List.map_cons, List.filter, hq, List.foldl_cons]
      have hd : delTable ((n, b) :: rest) n = rest := by simp [delTable]
      rw [hd]
      simpa [List.filter, hq] using ih
    · have hqf : q n = false := Bool.eq_false_iff.mpr hq
      have hcand : ∀ m ∈ (rest.map Prod.fst).filter q, m ≠ n := by
        intro m hm he
        subst he
        exact hq (List.mem_filter.mp hm).2
      simp only [List.map_cons, List.filter, hqf]
      rw [foldl_delTable_cons_ne n b _ rest hcand]
      simp [List.filter, hqf, ih]

theorem boltDrop_eq_filter (st : KV) (t : GoStr) :
    boltDrop st t = st.filter
      (fun nb => !((((t ++ [sepr]).isPrefixOf nb.1 || nb.1 == t)) &&
        !(nb.1 == kvliteName))) := by
  unfold boltDrop boltBuckets
  rw [boltBucketsAux_false, List.filter_filter]
  exact foldl_delTable_filter _ st

theorem dropCond_iff (t n : GoStr) :
    ((t ++ [sepr]).isPrefixOf n || n == t) = true
      ↔ (n = t ∨ (t ++ [sepr]) <+: n) := by
  simp [List.isPrefixOf_iff_prefix, or_comm]

theorem dropCondNeg_iff (t n : GoStr) :
    (!((t ++ [sepr]).isPrefixOf n || n == t)) = true
      ↔ ¬(n = t ∨ (t ++ [sepr]) <+: n) := by
  rw [Bool.not_eq_true', Bool.eq_false_iff]
  exact not_congr (dropCond_iff t n)

/-- C2: on the in-memory backend, `Drop(t)` removes exactly the table named
`t` and every table prefixed by `t` plus the separator; the persistent
backend does the same EXCEPT that a table named `KVLite` is never removed
(its `buckets()` hides the name from the candidate list), so at the failing
input `Drop("KVLite")` the persistent backend removes nothing — contrary to
the claim and to `CryptReset`'s own use of it.  The concrete cascade
example (tables `a`, `a␟x`, `a␟y`, `ab`; drop `a`) behaves as claimed on
both backends. -/
theorem dropCascade :
    (∀ (st : KV) (t : GoStr) (nb : GoStr × TBucket),
        nb ∈ memDrop st t ↔ nb ∈ st ∧ ¬(nb.1 = t ∨ (t ++ [sepr]) <+: nb.1)) ∧
    (∀ (st : KV) (t : GoStr) (nb : GoStr × TBucket),
        nb ∈ boltDrop st t ↔
          nb ∈ st ∧ ¬(nb.1 ≠ kvliteName ∧ (nb.1 = t ∨ (t ++ [sepr]) <+: nb.1))) ∧
    boltDrop exSt aN = [(abN, [(kN, [0, 4])])] ∧
    memDrop exSt aN = [(abN, [(kN, [0, 4])])] ∧
    boltDrop c8st kvliteName = c8st ∧
    memDrop c8st kvliteName = [(tN, [(ekN, [1, 5]), (pkN, [0, 7])])] := by
  refine ⟨?_, ?_, by decide, by decide, by decide, by decide⟩
  · intro st t nb
    unfold memDrop
    rw [List.mem_filter]
    exact and_congr_right (fun _ => dropCondNeg_iff t nb.1)
  · intro st t nb
    rw [boltDrop_eq_filter, List.mem_filter]
    refine and_congr_right (fun _ => ?_)
    rw [Bool.not_eq_true', Bool.eq_false_iff]
    refine not_congr ?_
    rw [Bool.and_eq_true, dropCond_iff, Bool.not_eq_true', beq_eq_false_iff_ne]
    exact and_comm

/-- C3: the round-trip law of the store.  `Set(t,k,v)` followed by
`Get(t,k)` on the same state yields the value back with `found = true`, on
both backends; `Get` of a key that is not stored in `t` yields
`found = false` with no decode activity (no error), on both backends. -/
theorem setGetRoundTrip {V : Type} (e : Encoder) (g : GobCodec V)
    (hg : GobCodec.RT g) :
    (∀ (st : KV) (t k : GoStr) (v : V),
        boltGet e g (boltSet e g st t k v false) t k = (true, DecOut.val v) ∧
        memGet e g (memSet e g st t k v false) t k = (true, DecOut.val v)) ∧
    (∀ (st : KV) (t k2 : GoStr), findVal st t k2 = none →
        boltGet e g st t k2 = (false, DecOut.noop) ∧
        memGet e g st t k2 = (false, DecOut.noop)) := by
  constructor
  · intro st t k v
    have hb : boltGet e g (boltSet e g st t k v false) t k
        = (true, DecOut.val v) := by
      unfold boltSet
      rw [boltGet_putRaw_self, decode_frame_false]
      unfold gobRes
      rw [hg v]
    exact ⟨hb, by rw [memGet_eq_boltGet, memSet_eq_boltSet]; exact hb⟩
  · intro st t k2 h
    exact ⟨boltGet_absent e g h, by rw [memGet_eq_boltGet]; exact boltGet_absent e g h⟩

/-- C3 witness at a concrete input. -/
theorem setGetRoundTrip_witness :
    boltGet e0 g0 (boltSet e0 g0 [] tN kN 3 false) tN kN
      = (true, DecOut.val 3) :=
  ((setGetRoundTrip e0 g0 (fun _ => rfl)).1 [] tN kN 3).1

/-- C4: the raw stored bytes are `[1] || encrypt(encode(v))` for `CryptSet`
and `[0] || encode(v)` for `Set`, on both backends; on read the payload is
decrypted exactly when the leading flag byte is 1; and both forms decode
back to `v` through `Get`. -/
theorem cryptFraming {V : Type} (e : Encoder) (g : GobCodec V)
    (hg : GobCodec.RT g) (he : Encoder.RT e) :
    (∀ (st : KV) (t k : GoStr) (v : V),
        findVal (boltSet e g st t k v true) t k = some (1 :: e.enc (g.enc v)) ∧
        findVal (boltSet e g st t k v false) t k = some (0 :: g.enc v) ∧
        findVal (memSet e g st t k v true) t k = some (1 :: e.enc (g.enc v)) ∧
        findVal (memSet e g st t k v false) t k = some (0 :: g.enc v)) ∧
    (∀ p : Bytes, decode e g (some (1 :: p)) = gobRes g (e.dec p)) ∧
    (∀ (b : Nat) (p : Bytes), b ≠ 1 →
        decode e g (some (b :: p)) = gobRes g p) ∧
    (∀ (st : KV) (t k : GoStr) (v : V),
        boltGet e g (boltSet e g st t k v true) t k = (true, DecOut.val v) ∧
        boltGet e g (boltSet e g st t k v false) t k = (true, DecOut.val v)) := by
  refine ⟨?_, ?_, ?_, ?_⟩
  · intro st t k v
    refine ⟨?_, ?_, ?_, ?_⟩ <;>
      simp [boltSet, memSet, frame, findVal_putRaw_self]
  · intro p
    simp [decode]
  · intro b p hb
    simp [decode, hb]
  · intro st t k v
    constructor
    · unfold boltSet
      rw [boltGet_putRaw_self, decode_frame_true e g he]
      unfold gobRes
      rw [hg v]
    · unfold boltSet
      rw [boltGet_putRaw_self, decode_frame_false]
      unfold gobRes
      rw [hg v]

/-- C4 witness at a concrete input. -/
theorem cryptFraming_witness :
    findVal (boltSet e0 g0 [] tN kN 5 true) tN kN
      = some (1 :: e0.enc (g0.enc 5)) :=
  ((cryptFraming e0 g0 (fun _ => rfl) (fun _ => rfl)).1 [] tN kN 5).1

theorem mem_putKey {b : TBucket} {k : GoStr} {v : Bytes} {kv : GoStr × Bytes}
    (h : kv ∈ putKey b k v) : kv ∈ b ∨ kv = (k, v) := by
  induction b with
  | nil =>
    simp [putKey] at h
    simp [h]
  | cons kv0 rest ih =>
    obtain ⟨k0, v0⟩ := kv0
    by_cases hk : k0 = k
    · subst hk
      simp [putKey] at h
      rcases h with h | h
      · right; simp [h]
      · left; simp [h]
    · simp [putKey, hk] at h
      rcases h with h | h
      · left; simp [h]
      · rcases ih h with h2 | h2
        · left; simp [h2]
        · right; exact h2

theorem mem_delKey {b : TBucket} {k : GoStr} {kv : GoStr × Bytes}
    (h : kv ∈ delKey b k) : kv ∈ b := by
  induction b with
  | nil => simp [delKey] at h
  | cons kv0 rest ih =>
    obtain ⟨k0, v0⟩ := kv0
    by_cases hk : k0 = k
    · subst hk
      simp [delKey] at h
      simp [h]
    · simp [delKey, hk] at h
      rcases h with h | h
      · simp [h]
      · simp [ih h]

theorem mem_updTable {st : KV} {t : GoStr} {f : TBucket → TBucket}
    {nb : GoStr × TBucket} (h : nb ∈ updTable st t f) :
    nb ∈ st ∨ ∃ b0, (t, b0) ∈ st ∧ nb = (t, f b0) := by
  induction st with
  | nil => simp [updTable] at h
  | cons nb0 rest ih =>
    obtain ⟨n, b⟩ := nb0
    by_cases hn : n = t
    · subst hn
      simp [updTable] at h
      rcases h with h | h
      · right
        exact ⟨b, by simp, h⟩
      · left
        simp [h]
    · simp [updTable, hn] at h
      rcases h with h | h
      · left; simp [h]
      · rcases ih h with h2 | ⟨b0, hb0, he⟩
        · left; simp [h2]
        · right
          exact ⟨b0, List.mem_cons_of_mem _ hb0, he⟩

theorem mem_ensureTable {st : KV} {t : GoStr} {nb : GoStr × TBucket}
    (h : nb ∈ ensureTable st t) : nb ∈ st ∨ nb = (t, []) := by
  unfold ensureTable at h
  cases hf : findTable st t with
  | some b =>
    rw [hf] at h
    exact Or.inl h
  | none =>
    rw [hf] at h
    rcases List.mem_append.mp h with h2 | h2
    · exact Or.inl h2
    · simp at h2
      exact Or.inr (by simp [h2])

theorem wfFlags_putRaw {st : KV} {t k : GoStr} {raw : Bytes}
    (hw : WfFlags st) (hr : raw.head? = some 0 ∨ raw.head? = some 1) :
    WfFlags (putRaw st t k raw) := by
  intro nb hnb kv hkv
  rcases mem_updTable hnb with h | ⟨b0, hb0, he⟩
  · rcases mem_ensureTable h with h2 | h2
    · exact hw _ h2 _ hkv
    · rw [h2] at hkv
      simp at hkv
  · rw [he] at hkv
    rcases mem_putKey hkv with h2 | h2
    · rcases mem_ensureTable hb0 with h3 | h3
      · exact hw _ h3 _ h2
      · simp at h3
        rw [h3] at h2
        simp at h2
    · rw [h2]
      exact hr

/-- C10: every record written through the public write path (either flag,
either backend) is non-empty and starts with the flag byte 0 or 1; records
satisfying that discipline make `decode` safe — `Get` never reaches the
out-of-bounds read of `input[0]` on a state whose records all carry a flag
byte, and the flag discipline is preserved by the write path itself. -/
theorem flagSafety {V : Type} (e : Encoder) (g : GobCodec V) :
    (∀ (st : KV) (t k : GoStr) (v : V) (flag : Bool),
        findVal (boltSet e g st t k v flag) t k
          = some (frame e (g.enc v) flag) ∧
        findVal (memSet e g st t k v flag) t k
          = some (frame e (g.enc v) flag) ∧
        (frame e (g.enc v) flag).head? = some (if flag then 1 else 0)) ∧
    (∀ (st : KV) (t k : GoStr) (v : V) (flag : Bool), WfFlags st →
        WfFlags (boltSet e g st t k v flag) ∧
        WfFlags (memSet e g st t k v flag)) ∧
    (∀ st : KV, WfFlags st → ∀ t k : GoStr,
        (boltGet e g st t k).2 ≠ DecOut.oob ∧
        (memGet e g st t k).2 ≠ DecOut.oob) := by
  refine ⟨?_, ?_, ?_⟩
  · intro st t k v flag
    refine ⟨?_, ?_, ?_⟩
    · exact findVal_putRaw_self st t k _
    · rw [memSet_eq_boltSet]
      exact findVal_putRaw_self st t k _
    · cases flag <;> simp [frame]
  · intro st t k v flag hw
    have hfr : (frame e (g.enc v) flag).head? = some 0 ∨
        (frame e (g.enc v) flag).head? = some 1 := by
      cases flag <;> simp [frame]
    exact ⟨wfFlags_putRaw hw hfr, by rw [memSet_eq_boltSet]; exact wfFlags_putRaw hw hfr⟩
  · intro st hw t k
    have hb : (boltGet e g st t k).2 ≠ DecOut.oob := by
      unfold boltGet
      cases ht : findTable st t with
      | none => simp
      | some b =>
        cases hk : findKey b k with
        | none => simp [hk, decode]
        | some data =>
          have hmem := hw _ (findTable_mem ht) _ (findKey_mem hk)
          rcases hmem with h | h <;>
          · cases data with
            | nil => simp at h
            | cons x rest =>
              simp only [hk, decode]
              exact gobRes_ne_oob g _
    exact ⟨hb, by rw [memGet_eq_boltGet]; exact hb⟩

/-- C10 witness at a concrete input. -/
theorem flagSafety_witness :
    (boltGet e0 g0 [(tN, [(kN, [0, 5])])] tN kN).2 ≠ DecOut.oob :=
  ((flagSafety e0 g0).2.2 [(tN, [(kN, [0, 5])])]
    (by
      intro nb hnb kv hkv
      simp at hnb
      subst hnb
      simp at hkv
      subst hkv
      simp) tN kN).1

theorem firstSeg_cases (n : GoStr) :
    n = firstSeg n ∨ (firstSeg n ++ [sepr]) <+: n := by
  induction n with
  | nil => left; rfl
  | cons c rest ih =>
    by_cases hc : c = sepr
    · right
      subst hc
      have hf : firstSeg (sepr :: rest) = [] := rfl
      rw [hf]
      exact ⟨rest, rfl⟩
    · have hcb : (c != sepr) = true := bne_iff_ne.mpr hc
      have hf : firstSeg (c :: rest) = c :: firstSeg rest := by
        unfold firstSeg
        rw [List.takeWhile_cons, if_pos hcb]
      rcases ih with h | h
      · left
        rw [hf, ← h]
      · right
        rw [hf]
        obtain ⟨s, hs⟩ := h
        refine ⟨s, ?_⟩
        simpa using congrArg (c :: ·) hs

theorem mem_boltBucketsAux_true {x : GoStr} :
    ∀ (names seen : List GoStr), x ∈ boltBucketsAux names seen true →
      ∃ n, n ∈ names ∧ n ≠ kvliteName ∧ x = firstSeg n := by
  intro names
  induction names with
  | nil =>
    intro seen h
    simp [boltBucketsAux] at h
  | cons n rest ih =>
    intro seen h
    by_cases hn : n = kvliteName
    · rw [boltBucketsAux, if_pos hn] at h
      obtain ⟨m, hm, h2, h3⟩ := ih seen h
      exact ⟨m, List.mem_cons_of_mem _ hm, h2, h3⟩
    · rw [boltBucketsAux, if_neg hn, if_pos rfl] at h
      by_cases hf : firstSeg n ∈ seen
      · rw [if_pos hf] at h
        obtain ⟨m, hm, h2, h3⟩ := ih seen h
        exact ⟨m, List.mem_cons_of_mem _ hm, h2, h3⟩
      · rw [if_neg hf] at h
        rcases List.mem_cons.mp h with h | h
        · exact ⟨n, List.mem_cons_self _ _, hn, h⟩
        · obtain ⟨m, hm, h2, h3⟩ := ih _ h
          exact ⟨m, List.mem_cons_of_mem _ hm, h2, h3⟩

/-- C5 amended: on the persistent backend the reserved system table is
hidden from enumeration: the full-depth bucket listing never contains
`KVLite`, and the depth-limited listing and `Tables()` never contain it
provided no caller table name sits below the reserved name (the name still
leaks as a first segment of a table such as `KVLite␟x`); the in-memory
backend does not filter it at all (see the counterexample). -/
theorem systemTableHidden :
    (∀ st : KV, kvliteName ∉ boltBuckets st false) ∧
    (∀ st : KV, (∀ nb ∈ st, ¬ (kvliteName ++ [sepr]) <+: nb.1) →
        kvliteName ∉ boltBuckets st true ∧ kvliteName ∉ boltTables st) := by
  constructor
  · intro st h
    unfold boltBuckets at h
    rw [boltBucketsAux_false] at h
    have := (List.mem_filter.mp h).2
    simp at this
  · intro st hst
    have hb : kvliteName ∉ boltBuckets st true := by
      intro h
      obtain ⟨n, hn, hne, he⟩ := mem_boltBucketsAux_true _ _ h
      rcases firstSeg_cases n with h2 | h2
      · exact hne (by rw [h2, ← he])
      · rw [← he] at h2
        obtain ⟨nb, hnb, hfst⟩ := List.mem_map.mp hn
        rw [← hfst] at h2
        exact hst nb hnb h2
    refine ⟨hb, fun h => hb ?_⟩
    exact (List.mem_filter.mp h).1

/-- C5 witness at a concrete input. -/
theorem systemTableHidden_witness :
    kvliteName ∉ boltBuckets c8st true ∧ kvliteName ∉ boltTables c8st :=
  systemTableHidden.2 c8st (by
    intro nb hnb
    rcases List.mem_cons.mp hnb with h | h
    · rw [h]; decide
    · rcases List.mem_cons.mp h with h2 | h2
      · rw [h2]; decide
      · simp at h2)

theorem viewS_names (e : Encoder) (st : KV) :
    (viewS e st).map Prod.fst = st.map Prod.fst := by
  rw [viewS, List.map_map]
  rfl

theorem viewB_names (e : Encoder) (b : TBucket) :
    (viewB e b).map Prod.fst = b.map Prod.fst := by
  rw [viewB, List.map_map]
  rfl

theorem findTable_viewS (e : Encoder) (st : KV) (t : GoStr) :
    findTable (viewS e st) t = (findTable st t).map (viewB e) := by
  induction st with
  | nil => rfl
  | cons nb rest ih =>
    obtain ⟨n, b⟩ := nb
    by_cases hn : n = t
    · subst hn
      simp [viewS, findTable]
    · simp only [viewS, List.map_cons] at ih ⊢
      rw [findTable_cons_ne hn, findTable_cons_ne hn]
      exact ih

theorem findKey_viewB (e : Encoder) (b : TBucket) (k : GoStr) :
    findKey (viewB e b) k = (findKey b k).map (frameView e) := by
  induction b with
  | nil => rfl
  | cons kv rest ih =>
    obtain ⟨k0, v0⟩ := kv
    by_cases hk : k0 = k
    · subst hk
      simp [viewB, findKey]
    · simp only [viewB, List.map_cons] at ih ⊢
      simp only [findKey, hk, if_false]
      exact ih

theorem viewB_putKey (e : Encoder) (b : TBucket) (k : GoStr) (raw : Bytes) :
    viewB e (putKey b k raw) = putKey (viewB e b) k (frameView e raw) := by
  induction b with
  | nil => rfl
  | cons kv rest ih =>
    obtain ⟨k0, v0⟩ := kv
    by_cases hk : k0 = k
    · subst hk
      simp [viewB, putKey]
    · simp [viewB, putKey, hk] at ih ⊢
      exact ih

theorem viewB_delKey (e : Encoder) (b : TBucket) (k : GoStr) :
    viewB e (delKey b k) = delKey (viewB e b) k := by
  induction b with
  | nil => rfl
  | cons kv rest ih =>
    obtain ⟨k0, v0⟩ := kv
    by_cases hk : k0 = k
    · subst hk
      simp [viewB, delKey]
    · simp [viewB, delKey, hk] at ih ⊢
      exact ih

theorem viewS_cons (e : Encoder) (n : GoStr) (b : TBucket) (st : KV) :
    viewS e ((n, b) :: st) = (n, viewB e b) :: viewS e st := rfl

theorem viewS_putRaw (e : Encoder) (st : KV) (t k : GoStr) (raw : Bytes) :
    viewS e (putRaw st t k raw) = putRaw (viewS e st) t k (frameView e raw) := by
  induction st with
  | nil =>
    simp [putRaw, ensureTable, findTable, updTable, viewS, viewB, putKey]
  | cons nb rest ih =>
    obtain ⟨n, b⟩ := nb
    by_cases hn : n = t
    · subst hn
      simp [putRaw, ensureTable, findTable, updTable, viewS_cons,
        viewB_putKey]
    · rw [putRaw_cons_ne hn, viewS_cons, viewS_cons, putRaw_cons_ne hn, ih]

theorem boltUnset_cons_ne {n t : GoStr} (hn : n ≠ t) (b : TBucket) (st : KV)
    (k : GoStr) :
    boltUnset ((n, b) :: st) t k = (n, b) :: boltUnset st t k := by
  unfold boltUnset
  rw [findTable_cons_ne hn]
  cases h : findTable st t with
  | none => rfl
  | some b2 => simp [updTable, hn]

theorem viewS_unset (e : Encoder) (st : KV) (t k : GoStr) :
    viewS e (boltUnset st t k) = boltUnset (viewS e st) t k := by
  induction st with
  | nil => rfl
  | cons nb rest ih =>
    obtain ⟨n, b⟩ := nb
    by_cases hn : n = t
    · subst hn
      simp [boltUnset, findTable, updTable, viewS_cons, viewB_delKey, viewS]
    · rw [boltUnset_cons_ne hn, viewS_cons, viewS_cons, boltUnset_cons_ne hn,
        ih]

theorem viewS_filter (e : Encoder) (pr : GoStr → Bool) (st : KV) :
    viewS e (st.filter (fun nb => pr nb.1))
      = (viewS e st).filter (fun nb => pr nb.1) := by
  induction st with
  | nil => rfl
  | cons nb rest ih =>
    obtain ⟨n, b⟩ := nb
    simp only [viewS] at ih ⊢
    by_cases hp : pr n = true
    · simp [List.filter, hp, ih]
    · have hpf : pr n = false := Bool.eq_false_iff.mpr hp
      simp [List.filter, hpf, ih]

theorem frameView_frame {e : Encoder} (he : Encoder.RT e) (p : Bytes)
    (flag : Bool) : frameView e (frame e p flag) = p := by
  cases flag
  · simp [frame, frameView]
  · simp [frame, frameView, he p]

theorem decode_some_ne_nil {V : Type} (e : Encoder) (g : GobCodec V)
    {d : Bytes} (h : d ≠ []) :
    decode e g (some d) = gobRes g (frameView e d) := by
  cases d with
  | nil => exact absurd rfl h
  | cons x rest => rfl

theorem memUnset_eq_boltUnset : @memUnset = @boltUnset := rfl

theorem memKeys_eq_boltKeys : @memKeys = @boltKeys := rfl

theorem memCountKeys_eq_boltCountKeys : @memCountKeys = @boltCountKeys := rfl

theorem boltGet_cons_ne {V : Type} (e : Encoder) (g : GobCodec V)
    {n t : GoStr} (h : n ≠ t) (b : TBucket) (st : KV) (k : GoStr) :
    boltGet e g ((n, b) :: st) t k = boltGet e g st t k := by
  unfold boltGet
  rw [findTable_cons_ne h]

theorem boltKeys_cons_ne {n t : GoStr} (h : n ≠ t) (b : TBucket) (st : KV) :
    boltKeys ((n, b) :: st) t = boltKeys st t := by
  unfold boltKeys
  rw [findTable_cons_ne h]

theorem boltCountKeys_cons_ne {n t : GoStr} (h : n ≠ t) (b : TBucket)
    (st : KV) : boltCountKeys ((n, b) :: st) t = boltCountKeys st t := by
  unfold boltCountKeys
  rw [findTable_cons_ne h]

theorem boltBucketsAux_cons_kvlite (names seen : List GoStr) (limit : Bool) :
    boltBucketsAux (kvliteName :: names) seen limit
      = boltBucketsAux names seen limit := by
  rw [boltBucketsAux, if_pos rfl]

theorem boltBucketsAux_eq_memBucketsAux :
    ∀ (names seen : List GoStr) (limit : Bool),
      (∀ n ∈ names, n ≠ kvliteName) →
      boltBucketsAux names seen limit = memBucketsAux names seen limit := by
  intro names
  induction names with
  | nil => intro seen limit _; rfl
  | cons n rest ih =>
    intro seen limit h
    have hn : n ≠ kvliteName := h n (by simp)
    have hrest : ∀ m ∈ rest, m ≠ kvliteName :=
      fun m hm => h m (by simp [hm])
    cases limit with
    | false => simp [boltBucketsAux, memBucketsAux, hn, ih seen false hrest]
    | true =>
      by_cases hf : firstSeg n ∈ seen
      · simp [boltBucketsAux, memBucketsAux, hn, hf, ih seen true hrest]
      · simp [boltBucketsAux, memBucketsAux, hn, hf,
          ih (firstSeg n :: seen) true hrest]

theorem mem_putRaw {st : KV} {t k : GoStr} {raw : Bytes}
    {nb : GoStr × TBucket} (h : nb ∈ putRaw st t k raw) :
    nb ∈ st ∨ nb.1 = t := by
  rcases mem_updTable h with h2 | ⟨b0, _, he⟩
  · rcases mem_ensureTable h2 with h3 | h3
    · exact Or.inl h3
    · right
      rw [h3]
  · right
    rw [he]

theorem nosys_putRaw {st : KV} {t k : GoStr} {raw : Bytes}
    (hs : NoSys st) (ht : t ≠ kvliteName) : NoSys (putRaw st t k raw) := by
  intro nb hnb
  rcases mem_putRaw hnb with h | h
  · exact hs nb h
  · rw [h]
    exact ht

theorem wfS_putRaw {st : KV} {t k : GoStr} {raw : Bytes}
    (hw : WfS st) (hr : raw ≠ []) : WfS (putRaw st t k raw) := by
  intro nb hnb kv hkv
  rcases mem_updTable hnb with h | ⟨b0, hb0, he⟩
  · rcases mem_ensureTable h with h2 | h2
    · exact hw nb h2 kv hkv
    · rw [h2] at hkv
      simp at hkv
  · rw [he] at hkv
    rcases mem_putKey hkv with h2 | h2
    · rcases mem_ensureTable hb0 with h3 | h3
      · exact hw _ h3 _ h2
      · simp at h3
        rw [h3] at h2
        simp at h2
    · rw [h2]
      exact hr

theorem mem_boltUnset {st : KV} {t k : GoStr} {nb : GoStr × TBucket}
    (h : nb ∈ boltUnset st t k) :
    nb ∈ st ∨ ∃ b0, (t, b0) ∈ st ∧ nb = (t, delKey b0 k) := by
  unfold boltUnset at h
  cases hf : findTable st t with
  | none =>
    rw [hf] at h
    exact Or.inl h
  | some b =>
    rw [hf] at h
    exact mem_updTable h

theorem nosys_boltUnset {st : KV} {t k : GoStr} (hs : NoSys st) :
    NoSys (boltUnset st t k) := by
  intro nb hnb
  rcases mem_boltUnset hnb with h | ⟨b0, hb0, he⟩
  · exact hs nb h
  · rw [he]
    exact hs (t, b0) hb0

theorem wfS_boltUnset {st : KV} {t k : GoStr} (hw : WfS st) :
    WfS (boltUnset st t k) := by
  intro nb hnb kv hkv
  rcases mem_boltUnset hnb with h | ⟨b0, hb0, he⟩
  · exact hw nb h kv hkv
  · rw [he] at hkv
    exact hw _ hb0 _ (mem_delKey hkv)

theorem nosys_filter {st : KV} {p : GoStr × TBucket → Bool}
    (hs : NoSys st) : NoSys (st.filter p) :=
  fun nb hnb => hs nb (List.mem_filter.mp hnb).1

theorem wfS_filter {st : KV} {p : GoStr × TBucket → Bool}
    (hw : WfS st) : WfS (st.filter p) :=
  fun nb hnb => hw nb (List.mem_filter.mp hnb).1

theorem findTableAgree (e1 e2 : Encoder) {s1 s2 : KV}
    (hview : viewS e1 s1 = viewS e2 s2) (t : GoStr) :
    (findTable s1 t).map (viewB e1) = (findTable s2 t).map (viewB e2) := by
  rw [← findTable_viewS, ← findTable_viewS, hview]

theorem countAgree (e1 e2 : Encoder) {s1 s2 : KV}
    (hview : viewS e1 s1 = viewS e2 s2) (t : GoStr) :
    boltCountKeys s1 t = boltCountKeys s2 t := by
  have hft := findTableAgree e1 e2 hview t
  unfold boltCountKeys
  cases hA : findTable s1 t with
  | none =>
    rw [hA] at hft
    cases hB : findTable s2 t with
    | none => rfl
    | some b2 => rw [hB] at hft; simp at hft
  | some b1 =>
    rw [hA] at hft
    cases hB : findTable s2 t with
    | none => rw [hB] at hft; simp at hft
    | some b2 =>
      rw [hB] at hft
      simp at hft
      have hl := congrArg List.length hft
      simpa [viewB] using hl

theorem keysAgree (e1 e2 : Encoder) {s1 s2 : KV}
    (hview : viewS e1 s1 = viewS e2 s2) (t : GoStr) :
    boltKeys s1 t = boltKeys s2 t := by
  have hft := findTableAgree e1 e2 hview t
  unfold boltKeys
  cases hA : findTable s1 t with
  | none =>
    rw [hA] at hft
    cases hB : findTable s2 t with
    | none => rfl
    | some b2 => rw [hB] at hft; simp at hft
  | some b1 =>
    rw [hA] at hft
    cases hB : findTable s2 t with
    | none => rw [hB] at hft; simp at hft
    | some b2 =>
      rw [hB] at hft
      simp at hft
      have hl := congrArg (List.map Prod.fst) hft
      rwa [viewB_names, viewB_names] at hl

theorem boltGet_eq_none1 {V : Type} (e : Encoder) (g : GobCodec V) {st : KV}
    {t : GoStr} (k : GoStr) (h : findTable st t = none) :
    boltGet e g st t k = (false, DecOut.noop) := by
  unfold boltGet
  rw [h]

theorem boltGet_eq_none2 {V : Type} (e : Encoder) (g : GobCodec V) {st : KV}
    {t k : GoStr} {b : TBucket} (h : findTable st t = some b)
    (h2 : findKey b k = none) :
    boltGet e g st t k = (false, DecOut.noop) := by
  unfold boltGet
  rw [h]
  simp [h2, decode]

theorem boltGet_eq_some {V : Type} (e : Encoder) (g : GobCodec V) {st : KV}
    {t k : GoStr} {b : TBucket} {d : Bytes} (h : findTable st t = some b)
    (h2 : findKey b k = some d) :
    boltGet e g st t k = (true, decode e g (some d)) := by
  unfold boltGet
  rw [h]
  simp [h2]

theorem getAgree {V : Type} (e1 e2 : Encoder) (g : GobCodec V) {s1 s2 : KV}
    (hview : viewS e1 s1 = viewS e2 s2) (hw1 : WfS s1) (hw2 : WfS s2)
    (t k : GoStr) : boltGet e1 g s1 t k = boltGet e2 g s2 t k := by
  have hft := findTableAgree e1 e2 hview t
  cases hA : findTable s1 t with
  | none =>
    rw [hA] at hft
    cases hB : findTable s2 t with
    | none => rw [boltGet_eq_none1 e1 g k hA, boltGet_eq_none1 e2 g k hB]
    | some b2 => rw [hB] at hft; simp at hft
  | some b1 =>
    rw [hA] at hft
    cases hB : findTable s2 t with
    | none => rw [hB] at hft; simp at hft
    | some b2 =>
      rw [hB] at hft
      simp at hft
      have hfk : (findKey b1 k).map (frameView e1)
          = (findKey b2 k).map (frameView e2) := by
        rw [← findKey_viewB, ← findKey_viewB, hft]
      cases hk1 : findKey b1 k with
      | none =>
        rw [hk1] at hfk
        cases hk2 : findKey b2 k with
        | none =>
          rw [boltGet_eq_none2 e1 g hA hk1, boltGet_eq_none2 e2 g hB hk2]
        | some d2 => rw [hk2] at hfk; simp at hfk
      | some d1 =>
        rw [hk1] at hfk
        cases hk2 : findKey b2 k with
        | none => rw [hk2] at hfk; simp at hfk
        | some d2 =>
          rw [hk2] at hfk
          simp at hfk
          have hd1 : d1 ≠ [] := hw1 _ (findTable_mem hA) _ (findKey_mem hk1)
          have hd2 : d2 ≠ [] := hw2 _ (findTable_mem hB) _ (findKey_mem hk2)
          rw [boltGet_eq_some e1 g hA hk1, boltGet_eq_some e2 g hB hk2,
            decode_some_ne_nil e1 g hd1, decode_some_ne_nil e2 g hd2, hfk]

theorem setSim {V : Type} (e1 e2 : Encoder) (g : GobCodec V)
    (h1 : Encoder.RT e1) (h2 : Encoder.RT e2) {bs2 ms : KV} {bx : TBucket}
    (hNoB : NoSys bs2) (hNoM : NoSys ms) (hWfB : WfS bs2) (hWfM : WfS ms)
    (hview : viewS e1 bs2 = viewS e2 ms) {t : GoStr} (ht : t ≠ kvliteName)
    (k : GoStr) (v : V) (flag : Bool) :
    SimInv e1 e2 (boltSet e1 g ((kvliteName, bx) :: bs2) t k v flag)
      (memSet e2 g ms t k v flag) := by
  unfold boltSet memSet
  rw [putRaw_cons_ne (Ne.symm ht)]
  refine ⟨bx, _, rfl, nosys_putRaw hNoB ht, nosys_putRaw hNoM ht,
    wfS_putRaw hWfB (by cases flag <;> simp [frame]),
    wfS_putRaw hWfM (by cases flag <;> simp [frame]), ?_⟩
  rw [viewS_putRaw, viewS_putRaw, frameView_frame h1, frameView_frame h2,
    hview]

theorem unsetSim (e1 e2 : Encoder) {bs2 ms : KV} {bx : TBucket}
    (hNoB : NoSys bs2) (hNoM : NoSys ms) (hWfB : WfS bs2) (hWfM : WfS ms)
    (hview : viewS e1 bs2 = viewS e2 ms) {t : GoStr} (ht : t ≠ kvliteName)
    (k : GoStr) :
    SimInv e1 e2 (boltUnset ((kvliteName, bx) :: bs2) t k)
      (memUnset ms t k) := by
  rw [memUnset_eq_boltUnset, boltUnset_cons_ne (Ne.symm ht)]
  refine ⟨bx, _, rfl, nosys_boltUnset hNoB, nosys_boltUnset hNoM,
    wfS_boltUnset hWfB, wfS_boltUnset hWfM, ?_⟩
  rw [viewS_unset, viewS_unset, hview]

theorem stepSim {V : Type} (e1 e2 : Encoder) (g : GobCodec V)
    (h1 : Encoder.RT e1) (h2 : Encoder.RT e2) {bs ms : KV} {op : Op V}
    (hinv : SimInv e1 e2 bs ms) (hop : Op.noSys op = true) :
    (boltStep e1 g bs op).1 = (memStep e2 g ms op).1 ∧
    SimInv e1 e2 (boltStep e1 g bs op).2 (memStep e2 g ms op).2 := by
  obtain ⟨bx, bs2, rfl, hNoB, hNoM, hWfB, hWfM, hview⟩ := hinv
  have hnames : bs2.map Prod.fst = ms.map Prod.fst := by
    have hc := congrArg (List.map Prod.fst) hview
    rwa [viewS_names, viewS_names] at hc
  have hnoKV : ∀ n ∈ bs2.map Prod.fst, n ≠ kvliteName := by
    intro n hn
    obtain ⟨nb, hnb, rfl⟩ := List.mem_map.mp hn
    exact hNoB nb hnb
  cases op with
  | tables =>
    have hbk : boltBuckets ((kvliteName, bx) :: bs2) true
        = memBuckets ms true := by
      unfold boltBuckets memBuckets
      rw [List.map_cons]
      rw [show ((kvliteName, bx) : GoStr × TBucket).1 = kvliteName from rfl]
      rw [boltBucketsAux_cons_kvlite,
        boltBucketsAux_eq_memBucketsAux _ _ _ hnoKV, hnames]
    constructor
    · simp [boltStep, memStep, boltTables, memTables, hbk]
    · exact ⟨bx, bs2, rfl, hNoB, hNoM, hWfB, hWfM, hview⟩
  | drop t =>
    have ht : t ≠ kvliteName := by simpa [Op.noSys] using hop
    have hb : boltDrop ((kvliteName, bx) :: bs2) t
        = (kvliteName, bx) ::
          bs2.filter (fun nb => !((t ++ [sepr]).isPrefixOf nb.1 || nb.1 == t)) := by
      rw [boltDrop_eq_filter]
      have hhead : (!((((t ++ [sepr]).isPrefixOf kvliteName || kvliteName == t)) &&
          !(kvliteName == kvliteName))) = true := by simp
      rw [List.filter_cons]
      simp only [hhead, if_true]
      refine congrArg (List.cons _) (List.filter_congr ?_)
      intro nb hnb
      have hne : (nb.1 == kvliteName) = false :=
        beq_eq_false_iff_ne.mpr (hNoB nb hnb)
      simp [hne]
    constructor
    · rfl
    · show SimInv e1 e2 (boltDrop ((kvliteName, bx) :: bs2) t) (memDrop ms t)
      rw [hb]
      refine ⟨bx, _, rfl, nosys_filter hNoB, nosys_filter hNoM,
        wfS_filter hWfB, wfS_filter hWfM, ?_⟩
      unfold memDrop
      rw [viewS_filter e1 (fun n => !((t ++ [sepr]).isPrefixOf n || n == t)),
        viewS_filter e2 (fun n => !((t ++ [sepr]).isPrefixOf n || n == t)),
        hview]
  | countKeys t =>
    have ht : t ≠ kvliteName := by simpa [Op.noSys] using hop
    constructor
    · have hc : boltCountKeys ((kvliteName, bx) :: bs2) t
          = memCountKeys ms t := by
        rw [boltCountKeys_cons_ne (Ne.symm ht), memCountKeys_eq_boltCountKeys]
        exact countAgree e1 e2 hview t
      simp [boltStep, memStep, hc]
    · exact ⟨bx, bs2, rfl, hNoB, hNoM, hWfB, hWfM, hview⟩
  | keys t =>
    have ht : t ≠ kvliteName := by simpa [Op.noSys] using hop
    constructor
    · have hc : boltKeys ((kvliteName, bx) :: bs2) t = memKeys ms t := by
        rw [boltKeys_cons_ne (Ne.symm ht), memKeys_eq_boltKeys]
        exact keysAgree e1 e2 hview t
      simp [boltStep, memStep, hc]
    · exact ⟨bx, bs2, rfl, hNoB, hNoM, hWfB, hWfM, hview⟩
  | set t k v =>
    have ht : t ≠ kvliteName := by simpa [Op.noSys] using hop
    exact ⟨rfl, setSim e1 e2 g h1 h2 hNoB hNoM hWfB hWfM hview ht k v false⟩
  | cryptSet t k v =>
    have ht : t ≠ kvliteName := by simpa [Op.noSys] using hop
    exact ⟨rfl, setSim e1 e2 g h1 h2 hNoB hNoM hWfB hWfM hview ht k v true⟩
  | unset t k =>
    have ht : t ≠ kvliteName := by simpa [Op.noSys] using hop
    exact ⟨rfl, unsetSim e1 e2 hNoB hNoM hWfB hWfM hview ht k⟩
  | get t k =>
    have ht : t ≠ kvliteName := by simpa [Op.noSys] using hop
    constructor
    · have hg : boltGet e1 g ((kvliteName, bx) :: bs2) t k
          = memGet e2 g ms t k := by
        rw [boltGet_cons_ne e1 g (Ne.symm ht), memGet_eq_boltGet]
        exact getAgree e1 e2 g hview hWfB hWfM t k
      simp [boltStep, memStep, hg]
    · exact ⟨bx, bs2, rfl, hNoB, hNoM, hWfB, hWfM, hview⟩

theorem runSim {V : Type} (e1 e2 : Encoder) (g : GobCodec V)
    (h1 : Encoder.RT e1) (h2 : Encoder.RT e2) :
    ∀ (ops : List (Op V)) (bs ms : KV), SimInv e1 e2 bs ms →
      (∀ op ∈ ops, Op.noSys op = true) →
      (boltRun e1 g bs ops).1 = (memRun e2 g ms ops).1 ∧
      SimInv e1 e2 (boltRun e1 g bs ops).2 (memRun e2 g ms ops).2 := by
  intro ops
  induction ops with
  | nil =>
    intro bs ms hinv _
    exact ⟨rfl, hinv⟩
  | cons op rest ih =>
    intro bs ms hinv hops
    have hop := hops op (by simp)
    have hstep := stepSim e1 e2 g h1 h2 hinv hop
    have hrest := ih _ _ hstep.2 (fun o ho => hops o (by simp [ho]))
    simp only [boltRun, memRun]
    exact ⟨by rw [hstep.1, hrest.1], hrest.2⟩

theorem e1_rt : Encoder.RT e1 := by
  intro b
  simp [e1, Function.comp_def]

/-- C9 counterexample: the two backends are distinguishable by an identical
operation sequence — writing into the reserved table name and listing
tables, even from identical (empty) starting states, yields different
caller-visible outputs (the persistent backend hides `KVLite`, the
in-memory one does not). -/
theorem backendsDiffer :
    (boltRun e0 g0 [] [Op.set kvliteName kN 7, Op.tables]).1
      ≠ (memRun e0 g0 [] [Op.set kvliteName kN 7, Op.tables]).1 := by
  decide

/-- C9 amended: for every sequence of table-qualified data operations
(Tables, Drop, CountKeys, Keys, Set, CryptSet, Unset, Get) whose table
arguments never name the reserved system table, a freshly opened persistent
store (whose state is the system table alone) and a fresh in-memory store
produce identical sequences of caller-visible outputs — values, found
flags, counts and name listings — whatever the two stores' encoders are,
as long as each decrypts what it encrypts. -/
theorem backendsAgree {V : Type} (e1' e2' : Encoder) (g : GobCodec V)
    (h1 : Encoder.RT e1') (h2 : Encoder.RT e2') (bx : TBucket)
    (ops : List (Op V)) (hops : ∀ op ∈ ops, Op.noSys op = true) :
    (boltRun e1' g [(kvliteName, bx)] ops).1 = (memRun e2' g [] ops).1 :=
  (runSim e1' e2' g h1 h2 ops _ _
    ⟨bx, [], rfl, fun nb h => absurd h (List.not_mem_nil nb),
      fun nb h => absurd h (List.not_mem_nil nb),
      fun nb h => absurd h (List.not_mem_nil nb),
      fun nb h => absurd h (List.not_mem_nil nb), rfl⟩ hops).1

/-- C9 witness: the agreement theorem applied to a concrete operation
sequence, concrete lock-state bucket and two distinct concrete encoders. -/
theorem backendsAgree_witness :
    (boltRun e0 g0 [(kvliteName, [(xKey, [0, 9])])] wops).1
      = (memRun e1 g0 [] wops).1 :=
  backendsAgree e0 e1 g0 (fun _ => rfl) e1_rt [(xKey, [0, 9])] wops
    (by decide)

/-- C7: after `CryptReset` completes on a database holding one encrypted and
one plaintext record plus a lock-state record, the encrypted key reads
`found = false` and the plaintext key is unchanged — but, contrary to the
claim, the reset marker and the lock-state record are NOT removed: the
closing `db.Drop("KVLite")` is a no-op because `buckets()` hides `KVLite`
from the candidate list. -/
theorem cryptResetLeavesMarker :
    boltGet e0 g0 c7st1 tN ekN = (false, DecOut.noop) ∧
    boltGet e0 g0 c7st1 tN pkN = (true, DecOut.val 7) ∧
    boltFound c7st1 kvliteName resetKey = true ∧
    findVal c7st1 kvliteName xKey = some (0 :: [9]) := by
  refine ⟨by decide, by decide, by decide, by decide⟩

/-- C8: `Open` on a database with a pending reset marker does run the purge
(the previously-encrypted record is gone and the plaintext record reads
back), but the handle it returns still shows the reset marker as set —
`CryptReset` never clears it, so a caller can observe the half-reset
state, contrary to the claim. -/
theorem openPreservesMarker :
    (openStore [1] [9] true c8st).isSome = true ∧
    Option.map (fun s => boltFound s kvliteName resetKey)
      (openStore [1] [9] true c8st) = some true ∧
    Option.map (fun s => findVal s tN ekN)
      (openStore [1] [9] true c8st) = some none ∧
    Option.map (fun s => boltGet e0 g0 s tN pkN)
      (openStore [1] [9] true c8st) = some (true, DecOut.val 7) := by
  refine ⟨by decide, by decide, by decide, by decide⟩

end KVLite
